import Mathlib

/-!
Verification development for the RimWorld defs-and-patches browser builder
(`build_defs_browser.py`).  The Python extraction pipeline, the inheritance
resolver and the embedded JavaScript query engine are shallowly embedded as
executable Lean functions over `Str := List Char` (the faithful model of the
scripting-language strings), and the behavioural claims about them are proved
below the definitions.
-/

namespace RimDefs

/-- Strings of the modelled program are lists of characters. -/
abbrev Str := List Char

/-- Coerce a Lean string literal into the model string type. -/
def str (s : String) : Str := s.data

/-- ASCII lower-casing of one character, the model of the lower-casing used by
both `str.lower()` and `String.prototype.toLowerCase` on the ASCII range. -/
def lowChar (c : Char) : Char :=
  if 65 ≤ c.toNat ∧ c.toNat ≤ 90 then Char.ofNat (c.toNat + 32) else c

/-- Lower-case a whole string. -/
def lowerStr (s : Str) : Str := s.map lowChar

/-- Whitespace test covering the characters relevant to `str.strip`,
`str.split` and the JavaScript `\s` class on the inputs at hand. -/
def isWs (c : Char) : Bool :=
  c = ' ' ∨ c = '\t' ∨ c = '\n' ∨ c = '\r' ∨ c = '\x0b' ∨ c = '\x0c'

/-- Model of `str.strip()`: drop whitespace from both ends. -/
def strip (s : Str) : Str :=
  ((s.dropWhile isWs).reverse.dropWhile isWs).reverse

/-- Decimal rendering of a natural number (model of Python `str(n)` and of
string interpolation of integers). -/
def natToStr (n : Nat) : Str := (Nat.repr n).data

/-- Model of `", ".join(items)`. -/
def joinComma : List Str → Str
  | [] => []
  | [x] => x
  | x :: xs => x ++ str ", " ++ joinComma xs

/-- Model of `"\n".join(lines)`. -/
def joinNl : List Str → Str
  | [] => []
  | [x] => x
  | x :: xs => x ++ '\n' :: joinNl xs

/-!  The XML document model.  An element carries its tag, attributes, leading
text (`None` when absent, as in ElementTree), child elements, and trailing
tail text.  -/

inductive Xml where
  | node (tag : Str) (attrs : List (Str × Str)) (text : Option Str)
         (children : List Xml) (tail : Option Str)

/-- Tag name of an element. -/
def Xml.tagOf : Xml → Str
  | .node t _ _ _ _ => t

/-- Attribute list of an element. -/
def Xml.attrsOf : Xml → List (Str × Str)
  | .node _ a _ _ _ => a

/-- Leading text of an element (`elem.text`). -/
def Xml.textOf : Xml → Option Str
  | .node _ _ t _ _ => t

/-- Direct children of an element (`list(elem)`). -/
def Xml.childrenOf : Xml → List Xml
  | .node _ _ _ cs _ => cs

/-- Tail text of an element (`elem.tail`). -/
def Xml.tailOf : Xml → Option Str
  | .node _ _ _ _ t => t

/-- Attribute lookup, the model of `elem.attrib.get(name)`. -/
def Xml.attrGet (e : Xml) (name : Str) : Option Str :=
  (e.attrsOf.find? (fun p => p.1 == name)).map (·.2)

mutual

/-- Concatenated descendant text of an element: the model of
`"".join(elem.itertext())`, which yields the leading text and then, for every
child in order, the child text recursively followed by the child tail. -/
def itertext : Xml → Str
  | .node _ _ t cs _ => t.getD [] ++ itertextList cs

/-- Text production of `itertext` over a child list. -/
def itertextList : List Xml → Str
  | [] => []
  | c :: cs => itertext c ++ (c.tailOf.getD []) ++ itertextList cs

end

mutual

/-- All descendant elements of an element in document order, the model of the
node set scanned by `root.findall(".//tag")` style queries. -/
def descendants : Xml → List Xml
  | .node _ _ _ cs _ => descsList cs

/-- Descendant collection over a child list, document order. -/
def descsList : List Xml → List Xml
  | [] => []
  | c :: cs => c :: (descendants c ++ descsList cs)

end

/-- Attribute rendering used by the serializer. -/
def attrsStr (attrs : List (Str × Str)) : Str :=
  attrs.foldl (fun acc p => acc ++ str " " ++ p.1 ++ str "=\"" ++ p.2 ++ str "\"") []

mutual

/-- Pretty-printed lines of one element at a given indent.  This models
`pretty_xml_of_node` (serialize, re-parse with minidom, indent by two spaces,
drop blank lines and the declaration).  All claims treat the produced markup
as opaque display text, so the exact line-break policy is not load-bearing. -/
def prettyLines (ind : Nat) : Xml → List Str
  | .node tag attrs text cs _ =>
    let pad : Str := List.replicate ind ' '
    let a := attrsStr attrs
    let t := strip (text.getD [])
    match cs with
    | [] =>
      if t = [] then [pad ++ str "<" ++ tag ++ a ++ str "/>"]
      else [pad ++ str "<" ++ tag ++ a ++ str ">" ++ t ++ str "</" ++ tag ++ str ">"]
    | c :: cs2 =>
      (pad ++ str "<" ++ tag ++ a ++ str ">")
        :: ((if t = [] then [] else [pad ++ str "  " ++ t])
            ++ prettyLinesList (ind + 2) (c :: cs2)
            ++ [pad ++ str "</" ++ tag ++ str ">"])

/-- Pretty-printed lines of a child list. -/
def prettyLinesList (ind : Nat) : List Xml → List Str
  | [] => []
  | c :: cs => prettyLines ind c ++ prettyLinesList ind cs

end

/-- Model of `pretty_xml_of_node`. -/
def pretty_xml_of_node (e : Xml) : Str := joinNl (prettyLines 0 e)

/-- Model of `node_text_content`: `"".join(elem.itertext()).strip()`. -/
def node_text_content (e : Xml) : Str := strip (itertext e)

/-- Model of `get_text(elem, name)`: the stripped text of the first direct
child with the given tag, or `None` when the child or its text is absent. -/
def get_text (e : Xml) (name : Str) : Option Str :=
  match e.childrenOf.find? (fun c => c.tagOf == name) with
  | none => none
  | some c =>
    match c.textOf with
    | none => none
    | some t => some (strip t)

/-- Truthiness of the values `bool_from` compares against. -/
def truthyWords : List Str := [str "true", str "1", str "yes"]

/-- Model of `bool_from(elem, child_name, attr_name)`: prefer the text of the
named child, else the named attribute, each matched case-insensitively
against true, 1, yes. -/
def bool_from (e : Xml) (childName attrName : Str) : Bool :=
  match get_text e childName with
  | some v => lowerStr (strip v) ∈ truthyWords
  | none =>
    match e.attrGet attrName with
    | some a => lowerStr (strip a) ∈ truthyWords
    | none => false

end RimDefs

namespace RimDefs

/-- Lexicographic code-point comparison of strings, the model of the
scripting-language string less-than. -/
def strLt (a b : Str) : Bool := decide (a < b)

/-- Non-strict variant of `strLt`. -/
def strLe (a b : Str) : Bool := !(strLt b a)

/-- Identity child tags excluded from generic field summarization
(`BASIC_FIELD_NAMES` in the source). -/
def BASIC_FIELD_NAMES : List Str :=
  [str "defName", str "label", str "description", str "parentName", str "abstract"]

/-- A key-value field summary entry (`{"k": tag, "v": summary}`). -/
structure KV where
  k : Str
  v : Str
deriving DecidableEq

/-- Leaf-with-text test used by the map-like branch of the summarizer:
`len(list(e)) == 0 and (e.text or "").strip() != ""`. -/
def is_leaf_with_text (e : Xml) : Bool :=
  e.childrenOf.isEmpty && !(strip (e.textOf.getD [])).isEmpty

/-- Model of `summarize_child_node`: ordered fallback over leaf text, list of
list items, map of leaf children, and finally child tag names. -/
def summarize_child_node (node : Xml) : Str :=
  let kids := node.childrenOf
  if kids.isEmpty then
    let val := strip (node.textOf.getD [])
    if val.isEmpty then str "(empty)"
    else val.take 120 ++ (if 120 < val.length then str "…" else [])
  else if kids.all (fun k => lowerStr k.tagOf == str "li") then
    let items := (kids.take 12).map (fun k =>
      let text := node_text_content k
      if text.isEmpty then str "(empty)" else text)
    let more := if 12 < kids.length then str ", +" ++ natToStr (kids.length - 12) ++ str " more" else []
    str "[" ++ joinComma items ++ more ++ str "]"
  else if kids.all is_leaf_with_text then
    let items := (kids.take 12).map (fun k => k.tagOf ++ str ": " ++ strip (k.textOf.getD []))
    let more := if 12 < kids.length then str ", +" ++ natToStr (kids.length - 12) ++ str " more" else []
    str "[" ++ joinComma items ++ more ++ str "]"
  else
    let names := (kids.take 6).map Xml.tagOf
    let more := if 6 < kids.length then str ", +" ++ natToStr (kids.length - 6) ++ str " more" else []
    str "[" ++ joinComma names ++ more ++ str "]"

/-- Sort key of one summary pair: `(p["k"].lower(), len(p["v"]))`. -/
def kvLe (p q : KV) : Bool :=
  strLt (lowerStr p.k) (lowerStr q.k)
    || (lowerStr p.k == lowerStr q.k && p.v.length ≤ q.v.length)

/-- Stable insertion of a pair: a later element passes every earlier element
whose key is less than or equal to its own, which reproduces the stable
ascending sort of the source. -/
def insertKV (x : KV) : List KV → List KV
  | [] => [x]
  | y :: ys => if kvLe y x then y :: insertKV x ys else x :: y :: ys

/-- Stable sort of the summary pairs by `(lower key, summary length)`. -/
def sortKV (l : List KV) : List KV := l.foldl (fun acc x => insertKV x acc) []

/-- Model of `extract_top_level_fields`: one summary pair per direct child
whose tag is not an identity field, sorted by `(lower key, value length)`.
The summarizer of the model is a total function, so the exception branch of
the source that replaces a failed summary with "(unreadable)" is
unreachable here. -/
def extract_top_level_fields (defnode : Xml) : List KV :=
  sortKV ((defnode.childrenOf.filter
            (fun c => decide (c.tagOf ∉ BASIC_FIELD_NAMES))).map
          (fun c => KV.mk c.tagOf (summarize_child_node c)))

/-- One normalized record of the browser data set. -/
structure Rec where
  id : Str
  kind : Str
  defType : Str
  defName : Str
  label : Option Str
  description : Option Str
  parentName : Option Str
  abstract : Bool
  filePath : Str
  relPath : Str
  source : Str
  rawXml : Str
  textBlob : Str
  kvPairs : List KV
  parentsChainIds : List Str
  parentsChainLabels : List Str
deriving DecidableEq

/-- The record identifier string built by both extraction strategies:
`f"{source_name}|{def_type}:{def_name}"`. -/
def mkId (source defType defName : Str) : Str :=
  source ++ str "|" ++ defType ++ str ":" ++ defName

/-- One element of the output collection: either a record or a parse failure
substitute (`{"parseError": ..., "filePath": ..., "source": ...}`). -/
inductive Entry where
  | record (r : Rec)
  | failure (parseError filePath source : Str)
deriving DecidableEq

/-- Model of `xml_path.relative_to(root)` at the call sites of the script,
where the path is always below the root. -/
def relTo (p base : Str) : Str :=
  if (base ++ str "/").isPrefixOf p then p.drop (base.length + 1) else p

/-- Model of `Path.stem`: final path component without its last suffix. -/
def stemOf (p : Str) : Str :=
  let base := (p.reverse.takeWhile (fun c => c ≠ '/')).reverse
  match base.reverse.dropWhile (fun c => c ≠ '.') with
  | [] => base
  | _ :: rest => if rest = [] then base else rest.reverse

/-- Model of `extract_defs_from_file`: on a parse failure one failure entry;
on a document whose root is not the definitions container nothing; otherwise
one def record per direct child of the root that carries a non-empty
`defName`. -/
def extract_defs_from_file (parsed : Except Str Xml)
    (xmlPath rootData sourceName : Str) : List Entry :=
  match parsed with
  | .error e => [.failure e xmlPath sourceName]
  | .ok root =>
    if root.tagOf ≠ str "Defs" then []
    else root.childrenOf.filterMap (fun defnode =>
      match get_text defnode (str "defName") with
      | none => none
      | some dn =>
        if dn = [] then none
        else some (.record {
          id := mkId sourceName defnode.tagOf dn
          kind := str "def"
          defType := defnode.tagOf
          defName := dn
          label := get_text defnode (str "label")
          description := get_text defnode (str "description")
          parentName := get_text defnode (str "parentName")
          abstract := bool_from defnode (str "abstract") (str "Abstract")
          filePath := xmlPath
          relPath := relTo xmlPath (rootData ++ str "/" ++ sourceName)
          source := sourceName
          rawXml := pretty_xml_of_node defnode
          textBlob := strip (itertext defnode)
          kvPairs := extract_top_level_fields defnode
          parentsChainIds := []
          parentsChainLabels := [] }))

/-- Model of `_first_texts(root, tag, maxn)`: the first `maxn` non-blank
stripped texts of descendant elements with the given tag. -/
def first_texts (root : Xml) (tag : Str) (maxn : Nat) : List Str :=
  (((descendants root).filter (fun el => el.tagOf == tag)).filterMap
    (fun el =>
      let t := strip (el.textOf.getD [])
      if t = [] then none else some t)).take maxn

/-- Enumeration starting at one, the model of `enumerate(ops, start=1)`. -/
def enumFrom (i : Nat) : List α → List (Nat × α)
  | [] => []
  | x :: xs => (i, x) :: enumFrom (i + 1) xs

/-- Zero-padding of an ordinal to four digits (`f"{idx:04d}"`). -/
def pad4 (n : Nat) : Str :=
  List.replicate (4 - (natToStr n).length) '0' ++ natToStr n

/-- Candidate operation elements of the patch strategy: every descendant
`Operation` element and every descendant list item carrying a `Class`
attribute.  The source deduplicates the concatenation by element identity;
the two query result sets are tag-disjoint and each query yields every
matching element once, so the deduplication removes nothing and the plain
concatenation is the faithful model. -/
def patchOps (root : Xml) : List Xml :=
  (descendants root).filter (fun el => el.tagOf == str "Operation")
    ++ (descendants root).filter
        (fun el => el.tagOf == str "li" && (el.attrGet (str "Class")).isSome)

/-- Patch-likeness test of the patch strategy: a patch root, or any candidate
operation element anywhere in the document. -/
def isPatchLike (root : Xml) : Bool :=
  root.tagOf == str "Patch"
    || !((descendants root).filter (fun el => el.tagOf == str "Operation")).isEmpty
    || !((descendants root).filter
          (fun el => el.tagOf == str "li" && (el.attrGet (str "Class")).isSome)).isEmpty

/-- Model of `extract_patches_from_file`: on a parse failure one failure
entry; on a document that is not patch-like nothing; otherwise one patch
record per candidate operation element, in document order, with a synthetic
ordinal name. -/
def extract_patches_from_file (parsed : Except Str Xml)
    (xmlPath rootData sourceName : Str) : List Entry :=
  match parsed with
  | .error e => [.failure e xmlPath sourceName]
  | .ok root =>
    if !isPatchLike root then []
    else
      let uniqOps := patchOps root
      if uniqOps.isEmpty then []
      else
        let relPath := relTo xmlPath (rootData ++ str "/" ++ sourceName)
        let fileStem := stemOf xmlPath
        (enumFrom 1 uniqOps).map (fun p =>
          let opnode := p.2
          let opClass :=
            match opnode.attrGet (str "Class") with
            | none => str "PatchOperation"
            | some a => if strip a = [] then str "PatchOperation" else strip a
          let defName := fileStem ++ str "#" ++ pad4 p.1
          let xpaths := first_texts opnode (str "xpath") 3
          Entry.record {
            id := mkId sourceName opClass defName
            kind := str "patch"
            defType := opClass
            defName := defName
            label := some (match xpaths with | [] => opClass | x :: _ => x)
            description := none
            parentName := none
            abstract := false
            filePath := xmlPath
            relPath := relPath
            source := sourceName
            rawXml := pretty_xml_of_node opnode
            textBlob := strip (itertext opnode)
            kvPairs := extract_top_level_fields opnode
            parentsChainIds := []
            parentsChainLabels := [] })

end RimDefs

namespace RimDefs

/-!  Inheritance resolver (`build_parent_chains` and its inner
`resolve_parent`).  The per-source dictionary keyed by `(defType, defName)`
holds, for each key, the last def record inserted, which `indexFind` models
directly as a left fold over the record list. -/

/-- Lookup in the per-source index: the last def record of the given source
with the given `(defType, defName)` key, mirroring dictionary overwrite
semantics of the index construction loop. -/
def indexFind (defs : List Rec) (srcName : Str) (key : Str × Str) : Option Rec :=
  defs.foldl (fun acc d =>
    if d.kind == str "def" && d.source == srcName
        && d.defType == key.1 && d.defName == key.2 then some d else acc) none

/-- Insertion step of the ascending sort of source names. -/
def insertStr (x : Str) : List Str → List Str
  | [] => [x]
  | y :: ys => if strLe y x then y :: insertStr x ys else x :: y :: ys

/-- Ascending sort of a list of strings (model of `sorted(...)`). -/
def sortStrs (l : List Str) : List Str := l.foldl (fun acc x => insertStr x acc) []

/-- The sorted key set of the index: every source that contributed at least
one def record, in ascending name order (model of `sorted(index.keys())`). -/
def indexSources (defs : List Rec) : List Str :=
  sortStrs (((defs.filter (fun d => d.kind == str "def")).map (fun d => d.source)).dedup)

/-- Model of `resolve_parent(cur_source, def_type, parent_name)`: same source
first, then the Core source, then the remaining sources in ascending name
order, first match wins, else unresolved. -/
def resolve_parent (defs : List Rec) (curSource defType parentName : Str) : Option Rec :=
  let key := (defType, parentName)
  match indexFind defs curSource key with
  | some d => some d
  | none =>
    match indexFind defs (str "Core") key with
    | some d => some d
    | none =>
      ((indexSources defs).filter
        (fun s => !(s == curSource) && !(s == str "Core"))).findSome?
        (fun s => indexFind defs s key)

/-- Sentinel label appended when a visited triple repeats. -/
def cycleSentinel : Str := str "(stopped: cycle)"

/-- Sentinel label appended when the chain exceeds the depth guard. -/
def depthSentinel : Str := str "(stopped: depth>100)"

/-- Label appended when a parent lookup is unresolved. -/
def missingLabel (defType parentName : Str) : Str :=
  defType ++ str ":" ++ parentName ++ str " (missing)"

/-- Display label of one resolved ancestor. -/
def parentLabel (p : Rec) : Str :=
  p.defType ++ str ":" ++ p.defName ++ str " [" ++ p.source ++ str "]"

/-- How one chain walk ended. -/
inductive StopKind where
  | root | missing | cycle | depth
deriving DecidableEq

/-- Outcome of one chain walk: the id chain, the label chain, the stop kind,
and as instrumentation the list of triples added to the `seen` set, in
visit order. -/
structure WalkOut where
  ids : List Str
  labels : List Str
  stop : StopKind
  visited : List (Str × Str × Str)
deriving DecidableEq

/-- The chain-walk loop of `build_parent_chains`.  The source counts steps
upward and stops when `steps > 100` right after a successful resolution;
here `rem` counts the remaining allowed recursions downward
(`rem = 100 - steps` at loop entry), so the guard fires exactly when a
resolution succeeds with `rem = 0`.  Loop body order is the order of the
source: truthiness test of the parent name, cycle check against `seen`,
resolution, append, climb, depth guard. -/
def walkAux (defs : List Rec) (seen : List (Str × Str × Str))
    (curSource curType : Str) (parentName : Option Str) (rem : Nat) : WalkOut :=
  match parentName with
  | none => ⟨[], [], .root, []⟩
  | some pn =>
    if pn = [] then ⟨[], [], .root, []⟩
    else
      let ck := (curSource, curType, pn)
      if ck ∈ seen then ⟨[], [cycleSentinel], .cycle, []⟩
      else
        match resolve_parent defs curSource curType pn with
        | none => ⟨[], [missingLabel curType pn], .missing, [ck]⟩
        | some p =>
          match rem with
          | 0 => ⟨[p.id], [parentLabel p, depthSentinel], .depth, [ck]⟩
          | rem2 + 1 =>
            let w := walkAux defs (ck :: seen) p.source p.defType p.parentName rem2
            ⟨p.id :: w.ids, parentLabel p :: w.labels, w.stop, ck :: w.visited⟩

/-- The walk of one record, started as in the source: empty seen set,
`steps = 0` (that is, `rem = 100`). -/
def walkOf (defs : List Rec) (d : Rec) : WalkOut :=
  walkAux defs [] d.source d.defType d.parentName 100

/-- Model of `build_parent_chains`: patch records get empty chains, def
records get the chains of their walk.  The walk reads only fields set at
extraction time, so mutating the chain fields while iterating, as the
source does, is order-independent and equals this map. -/
def build_parent_chains (defs : List Rec) : List Rec :=
  defs.map (fun d =>
    if d.kind ≠ str "def" then
      { d with parentsChainIds := [], parentsChainLabels := [] }
    else
      let w := walkOf defs d
      { d with parentsChainIds := w.ids, parentsChainLabels := w.labels })

/-!  The batch driver (`main`) and the record collections of the emitted
payload. -/

/-- Per-document extraction of `main`: the definitions strategy first, the
patch strategy only when the first yielded nothing. -/
def process_file (rootData : Str) (doc : Str × Str × Except Str Xml) : List Entry :=
  let recsDefs := extract_defs_from_file doc.2.2 doc.2.1 rootData doc.1
  if recsDefs ≠ [] then recsDefs
  else extract_patches_from_file doc.2.2 doc.2.1 rootData doc.1

/-- The whole batch over the discovered documents, each given as
`(sourceName, absolutePath, parse result)`. -/
def processAll (rootData : Str) : List (Str × Str × Except Str Xml) → List Entry
  | [] => []
  | doc :: docs => process_file rootData doc ++ processAll rootData docs

/-- The records of an entry list (model of the key-presence filter
`"parseError" not in d`). -/
def recsOf : List Entry → List Rec
  | [] => []
  | .record r :: es => r :: recsOf es
  | .failure _ _ _ :: es => recsOf es

/-- The parse failures of an entry list, as `(message, path, source)`. -/
def failsOf : List Entry → List (Str × Str × Str)
  | [] => []
  | .record _ :: es => failsOf es
  | .failure m p s :: es => (m, p, s) :: failsOf es

/-- The payload record collection written into the page: resolved records
first, parse failures after (`defs + errors`). -/
def payloadRecords (rootData : Str)
    (docs : List (Str × Str × Except Str Xml)) : List Entry :=
  let entries := processAll rootData docs
  (build_parent_chains (recsOf entries)).map Entry.record
    ++ (failsOf entries).map (fun f => Entry.failure f.1 f.2.1 f.2.2)

/-- The entries the page script browses, indexes and searches:
`DATA.records.filter(d => !d.parseError)`.  A failure entry survives the
filter only when its message is the empty (falsy) string. -/
def jsBrowsable (entries : List Entry) : List Entry :=
  entries.filter (fun e =>
    match e with
    | .record _ => true
    | .failure m _ _ => m.isEmpty)

/-- The aggregate count surfaced in the page footer:
`DATA.records.filter(d => d.parseError).length`. -/
def parseIssueCount (entries : List Entry) : Nat :=
  (entries.filter (fun e =>
    match e with
    | .record _ => false
    | .failure m _ _ => !m.isEmpty)).length

/-!  Query engine: tokenization and the matching predicate. -/

/-- Splitting into maximal whitespace-free words; the accumulator holds the
current word reversed. -/
def splitTokens (acc : Str) : Str → List Str
  | [] => if acc = [] then [] else [acc.reverse]
  | c :: rest =>
    if isWs c then
      if acc = [] then splitTokens [] rest else acc.reverse :: splitTokens [] rest
    else splitTokens (c :: acc) rest

/-- Model of `tokenize(s)`:
`(s || "").trim().toLowerCase().split(/\s+/).filter(Boolean)`. -/
def tokenize (q : Str) : List Str := splitTokens [] (lowerStr q)

/-- The searched fields in the order the haystack concatenates them. -/
def hayFields (r : Rec) : List Str :=
  [r.source, r.defType, r.defName, r.label.getD [], r.description.getD [],
   r.textBlob, r.filePath, r.rawXml]

/-- Space-separated concatenation of a field list. -/
def joinSp : List Str → Str
  | [] => []
  | [x] => x
  | x :: xs => x ++ ' ' :: joinSp xs

/-- The lower-cased haystack of `matchRecord`: source, type, name, label,
description, text blob, file path and raw markup joined by single spaces. -/
def hayOf (r : Rec) : Str := lowerStr (joinSp (hayFields r))

/-- Substring test (model of `String.prototype.includes`). -/
def isSubB (t : Str) : Str → Bool
  | [] => t.isEmpty
  | c :: rest => t.isPrefixOf (c :: rest) || isSubB t rest

/-- Model of `matchRecord(rec, terms)` with the enabled-source and
enabled-type sets passed explicitly: both filters must contain the record,
and every term must occur in the haystack (an empty term list matches). -/
def matchRecord (sourceFilter typeFilter : List Str) (r : Rec)
    (terms : List Str) : Bool :=
  if r.source ∈ sourceFilter then
    if r.defType ∈ typeFilter then
      if terms = [] then true
      else terms.all (fun t => isSubB t (hayOf r))
    else false
  else false

/-!  Highlighting: the string highlighter `highlightText` (per-term
sequential regex replacement) and the text-node highlighter
`markTermsInElement` (earliest-starting candidate scan). -/

/-- Entity replacement of one character (model of `escapeHtml`). -/
def escChar (c : Char) : Str :=
  if c = '&' then str "&amp;"
  else if c = '<' then str "&lt;"
  else if c = '>' then str "&gt;"
  else if c = '"' then str "&quot;"
  else if c = '\'' then str "&#39;"
  else [c]

/-- Model of `escapeHtml`. -/
def escapeHtml : Str → Str
  | [] => []
  | c :: rest => escChar c ++ escapeHtml rest

/-- Case-insensitive prefix test. -/
def isPrefixCI (t s : Str) : Bool := (lowerStr t).isPrefixOf (lowerStr s)

/-- One global case-insensitive literal replacement pass wrapping every
non-overlapping occurrence of `t` in mark tags, scanning left to right:
the model of `html.replace(new RegExp(escapeRegExp(t), "ig"),
"<mark>$1</mark>")` (the pattern is regex-escaped, hence a literal).  The
fuel argument only bounds the recursion; every step consumes at least one
character, so `fuel = s.length` makes the bound inert. -/
def replaceMarkAux (t : Str) : Nat → Str → Str
  | _, [] => []
  | 0, s => s
  | fuel + 1, c :: rest =>
    if t ≠ [] ∧ isPrefixCI t (c :: rest) then
      str "<mark>" ++ (c :: rest).take t.length ++ str "</mark>"
        ++ replaceMarkAux t fuel ((c :: rest).drop t.length)
    else c :: replaceMarkAux t fuel rest

/-- Replacement pass with adequate fuel. -/
def replaceMarkCI (t s : Str) : Str := replaceMarkAux t s.length s

/-- Model of `highlightText(text, terms)`: escape, then one replacement pass
per term in order, skipping empty terms. -/
def highlightText (text : Str) (terms : List Str) : Str :=
  terms.foldl (fun html t => if t = [] then html else replaceMarkCI t html)
    (escapeHtml text)

/-- Scan of an HTML string checking that mark tags never nest: every opening
mark tag must occur at depth zero. -/
def marksFlat : Str → Nat → Bool
  | [], _ => true
  | '<' :: 'm' :: 'a' :: 'r' :: 'k' :: '>' :: rest, d =>
    decide (d = 0) && marksFlat rest (d + 1)
  | '<' :: '/' :: 'm' :: 'a' :: 'r' :: 'k' :: '>' :: rest, d =>
    decide (0 < d) && marksFlat rest (d - 1)
  | _ :: rest, d => marksFlat rest d

/-- First case-insensitive occurrence index of `t` (model of
`lower.indexOf(t.toLowerCase(), pos)` relative to the scan position). -/
def indexOfCI (t : Str) : Str → Option Nat
  | [] => if t.isEmpty then some 0 else none
  | c :: rest =>
    if isPrefixCI t (c :: rest) then some 0 else (indexOfCI t rest).map (· + 1)

/-- The candidate selection of `markTermsInElement`: over all terms, the
first occurrence with the strictly smallest index wins, ties going to the
earliest term in the list — a right fold that reproduces the left-to-right
strict-improvement loop of the source. -/
def bestMatch (terms : List Str) (rem : Str) : Option (Nat × Str) :=
  match terms with
  | [] => none
  | t :: ts =>
    match indexOfCI t rem, bestMatch ts rem with
    | none, b => b
    | some i, none => some (i, t)
    | some i, some (j, u) => if j < i then some (j, u) else some (i, t)

/-- One output piece of the text-node highlighter. -/
inductive Seg where
  | plain (s : Str)
  | marked (s : Str)
deriving DecidableEq

/-- The scan loop of `markTermsInElement` over one text node, expressed on
the remaining suffix: take the earliest-starting candidate, emit the plain
gap and the marked slice, continue after it.  The fuel argument only bounds
the recursion; every iteration consumes at least one character, so
`fuel = text.length` makes the bound inert.  The empty-term branch is
unreachable because callers filter empty terms exactly as the source
does. -/
def scanSegs (terms : List Str) : Nat → Str → List Seg
  | _, [] => []
  | 0, rem => [.plain rem]
  | fuel + 1, c :: rest =>
    match bestMatch terms (c :: rest) with
    | none => [.plain (c :: rest)]
    | some (i, t) =>
      if t = [] then [.plain (c :: rest)]
      else
        (if 0 < i then [Seg.plain ((c :: rest).take i)] else [])
          ++ Seg.marked (((c :: rest).drop i).take t.length)
          :: scanSegs terms fuel (((c :: rest).drop i).drop t.length)

/-- Model of `markTermsInElement` on one text node: filter out empty terms,
then run the scan.  A node with no valid terms is left untouched, which
renders as one plain segment. -/
def markSegments (text : Str) (terms : List Str) : List Seg :=
  let validTerms := terms.filter (fun t => !t.isEmpty)
  if validTerms.isEmpty then [.plain text]
  else scanSegs validTerms text.length text

/-- The text rendered by a segment list. -/
def flattenSegs : List Seg → Str
  | [] => []
  | .plain s :: rest => s ++ flattenSegs rest
  | .marked s :: rest => s ++ flattenSegs rest

/-- Number of marked segments. -/
def countMarked : List Seg → Nat
  | [] => 0
  | .plain _ :: rest => countMarked rest
  | .marked _ :: rest => 1 + countMarked rest

/-- The marked slices of a segment list, in order. -/
def markedSegs (l : List Seg) : List Str :=
  l.filterMap (fun s => match s with | .marked m => some m | _ => none)

end RimDefs

namespace RimDefs

/-!  Generic helper lemmas about the insertion sorts and the entry
collections. -/

lemma insertKV_perm (x : KV) (l : List KV) : (insertKV x l).Perm (x :: l) := by
  induction l with
  | nil => simp [insertKV]
  | cons y ys ih =>
    simp only [insertKV]
    split
    · exact (ih.cons y).trans (List.Perm.swap x y ys)
    · exact List.Perm.refl _

lemma foldl_insertKV_perm :
    ∀ (l acc : List KV), (l.foldl (fun a x => insertKV x a) acc).Perm (acc ++ l) := by
  intro l
  induction l with
  | nil => intro acc; simp
  | cons x xs ih =>
    intro acc
    simp only [List.foldl_cons]
    exact (ih (insertKV x acc)).trans
      (((insertKV_perm x acc).append_right xs).trans List.perm_middle.symm)

lemma sortKV_perm (l : List KV) : (sortKV l).Perm l := by
  simpa using foldl_insertKV_perm l []

lemma mem_of_mem_enumFrom {α : Type} :
    ∀ (n : Nat) (l : List α) (p : Nat × α), p ∈ enumFrom n l → p.2 ∈ l := by
  intro n l
  induction l generalizing n with
  | nil => intro p hp; simp [enumFrom] at hp
  | cons x xs ih =>
    intro p hp
    simp only [enumFrom, List.mem_cons] at hp
    rcases hp with h | h
    · subst h; exact List.mem_cons_self _ _
    · exact List.mem_cons_of_mem _ (ih _ _ h)

end RimDefs

namespace RimDefs

/-!  Claim C4: field summaries of patch records. -/

/-- Concrete child elements and patch document used to exhibit the behaviour
of the summarizer on a patch operation with an identity-named child. -/
def labelChild : Xml := .node (str "label") [] (some (str "x")) [] none

def fooChild : Xml := .node (str "foo") [] (some (str "y")) [] none

def opC4 : Xml := .node (str "Operation") [] none [labelChild, fooChild] none

def patchDocC4 : Xml := .node (str "Patch") [] none [opC4] none

/-- Field summaries of the first record of an entry list. -/
def kvFirst : List Entry → List KV
  | .record r :: _ => r.kvPairs
  | _ => []

/-- Claim C4, counterexample: a patch operation with direct children
`label` and `foo` yields a single field summary — the `label` child is
excluded by the identity-field filter, so patch summaries do not cover
every direct child. -/
theorem c4_counterexample :
    (kvFirst (extract_patches_from_file (.ok patchDocC4)
        (str "/data/S/p.xml") (str "/data") (str "S"))).length = 1
    ∧ opC4.childrenOf.length = 2
    ∧ kvFirst (extract_patches_from_file (.ok patchDocC4)
        (str "/data/S/p.xml") (str "/data") (str "S"))
      = [KV.mk (str "foo") (str "y")] := by
  refine ⟨by decide, by decide, by decide⟩

/-- Claim C4 (amended): for every element, the field summaries are exactly
one `(tag, summary)` pair per direct child whose tag is not an identity
field name, up to the sorting permutation; and every patch record computes
its field summaries by that same identity-excluding function over the
direct children of its candidate operation element. -/
theorem c4_patch_field_summaries :
    (∀ node : Xml,
      (extract_top_level_fields node).Perm
        ((node.childrenOf.filter (fun c => decide (c.tagOf ∉ BASIC_FIELD_NAMES))).map
          (fun c => KV.mk c.tagOf (summarize_child_node c))))
    ∧ (∀ (root : Xml) (xmlPath rootData sourceName : Str) (r : Rec),
        Entry.record r ∈ extract_patches_from_file (.ok root) xmlPath rootData sourceName →
        ∃ op ∈ patchOps root, r.kvPairs = extract_top_level_fields op) := by
  constructor
  · intro node
    exact sortKV_perm _
  · intro root xmlPath rootData sourceName r hr
    simp only [extract_patches_from_file] at hr
    split at hr
    · simp at hr
    · split at hr
      · simp at hr
      · simp only [List.mem_map] at hr
        obtain ⟨p, hp, hpr⟩ := hr
        refine ⟨p.2, mem_of_mem_enumFrom 1 _ p hp, ?_⟩
        cases hpr
        rfl

/-- Claim C4, witness record: the single patch record extracted from the
concrete patch document above, written out in full. -/
def c4rec : Rec :=
  { id := str "S|PatchOperation:p#0001"
    kind := str "patch"
    defType := str "PatchOperation"
    defName := str "p#0001"
    label := some (str "PatchOperation")
    description := none
    parentName := none
    abstract := false
    filePath := str "/data/S/p.xml"
    relPath := str "p.xml"
    source := str "S"
    rawXml := str "<Operation>\n  <label>x</label>\n  <foo>y</foo>\n</Operation>"
    textBlob := str "xy"
    kvPairs := [KV.mk (str "foo") (str "y")]
    parentsChainIds := []
    parentsChainLabels := [] }

/-- Claim C4, witness: the amended statement applied at the concrete patch
document and its extracted record. -/
theorem c4_witness :
    ∃ op ∈ patchOps patchDocC4, c4rec.kvPairs = extract_top_level_fields op :=
  c4_patch_field_summaries.2 patchDocC4 (str "/data/S/p.xml") (str "/data") (str "S")
    c4rec (by decide)

end RimDefs

namespace RimDefs

/-!  Claim C5: the mixed/nested branch of the summarizer. -/

/-- A child with nested structure, used twice to produce duplicate tags. -/
def c5kid : Xml := .node (str "a") [] none [.node (str "b") [] (some (str "z")) [] none] none

/-- A node in the mixed/nested case whose two children share one tag. -/
def c5ex : Xml := .node (str "stages") [] none [c5kid, c5kid] none

/-- Claim C5, counterexample: in the mixed/nested case the summarizer lists
the tag names of the first six children verbatim, so a repeated tag appears
repeatedly — the listed names are not distinct. -/
theorem c5_counterexample :
    summarize_child_node c5ex = str "[a, a]"
    ∧ ¬ (((c5ex.childrenOf.take 6).map Xml.tagOf).Nodup)
    ∧ ¬ (∀ k ∈ c5ex.childrenOf, lowerStr k.tagOf = str "li")
    ∧ ¬ (∀ k ∈ c5ex.childrenOf, is_leaf_with_text k = true) := by
  refine ⟨by decide, by decide, by decide, by decide⟩

/-- Claim C5 (amended): for every child element in the mixed/nested case
(children present, not all list items, not all text-bearing leaves) the
summary lists the tag names of the first six children, duplicates included,
with a more-suffix counting the children beyond the sixth. -/
theorem c5_mixed_branch (node : Xml)
    (h1 : node.childrenOf ≠ [])
    (h2 : ¬ (∀ k ∈ node.childrenOf, lowerStr k.tagOf = str "li"))
    (h3 : ¬ (∀ k ∈ node.childrenOf, is_leaf_with_text k = true)) :
    summarize_child_node node =
      str "[" ++ joinComma ((node.childrenOf.take 6).map Xml.tagOf)
        ++ (if 6 < node.childrenOf.length
            then str ", +" ++ natToStr (node.childrenOf.length - 6) ++ str " more"
            else [])
        ++ str "]" := by
  have e1 : node.childrenOf.isEmpty = false := by
    rw [Bool.eq_false_iff]
    intro h
    exact h1 (List.isEmpty_iff.mp h)
  have e2 : (node.childrenOf.all fun k => lowerStr k.tagOf == str "li") = false := by
    rw [Bool.eq_false_iff]
    intro hall
    exact h2 (fun k hk => by simpa using List.all_eq_true.mp hall k hk)
  have e3 : (node.childrenOf.all is_leaf_with_text) = false := by
    rw [Bool.eq_false_iff]
    intro hall
    exact h3 (fun k hk => List.all_eq_true.mp hall k hk)
  simp [summarize_child_node, e1, e2, e3]

/-- Claim C5, witness: the amended statement applied at the concrete mixed
node, all three side conditions discharged by evaluation. -/
theorem c5_witness :
    summarize_child_node c5ex =
      str "[" ++ joinComma ((c5ex.childrenOf.take 6).map Xml.tagOf)
        ++ (if 6 < c5ex.childrenOf.length
            then str ", +" ++ natToStr (c5ex.childrenOf.length - 6) ++ str " more"
            else [])
        ++ str "]" :=
  c5_mixed_branch c5ex (List.cons_ne_nil _ _) (by decide) (by decide)

end RimDefs

namespace RimDefs

/-!  Claim C7: highlighting. -/

lemma isPrefixCI_nil_of_ne {t : Str} (ht : t ≠ []) : isPrefixCI t [] = false := by
  cases t with
  | nil => exact absurd rfl ht
  | cons c cs => rfl

lemma indexOfCI_prefix :
    ∀ (s t : Str) (i : Nat), indexOfCI t s = some i →
      isPrefixCI t (s.drop i) = true := by
  intro s
  induction s with
  | nil =>
    intro t i h
    simp only [indexOfCI] at h
    split at h
    · cases h
      simp_all [isPrefixCI, List.isEmpty_iff]
    · cases h
  | cons c rest ih =>
    intro t i h
    simp only [indexOfCI] at h
    by_cases hp : isPrefixCI t (c :: rest) = true
    · rw [if_pos hp] at h
      cases h
      simpa using hp
    · rw [if_neg hp] at h
      cases hio : indexOfCI t rest with
      | none => rw [hio] at h; cases h
      | some i0 =>
        rw [hio] at h
        simp only [Option.map_some'] at h
        cases h
        simpa using ih t i0 hio

lemma indexOfCI_min :
    ∀ (s t : Str) (i : Nat), indexOfCI t s = some i →
      ∀ j, isPrefixCI t (s.drop j) = true → i ≤ j := by
  intro s
  induction s with
  | nil =>
    intro t i h j hj
    simp only [indexOfCI] at h
    split at h
    · cases h; exact Nat.zero_le j
    · cases h
  | cons c rest ih =>
    intro t i h j hj
    simp only [indexOfCI] at h
    by_cases hp : isPrefixCI t (c :: rest) = true
    · rw [if_pos hp] at h; cases h; exact Nat.zero_le j
    · rw [if_neg hp] at h
      cases hio : indexOfCI t rest with
      | none => rw [hio] at h; cases h
      | some i0 =>
        rw [hio] at h
        simp only [Option.map_some'] at h
        cases h
        cases j with
        | zero => simp only [List.drop_zero] at hj; exact absurd hj hp
        | succ j0 =>
          have : i0 ≤ j0 := ih t i0 hio j0 (by simpa using hj)
          omega

lemma indexOfCI_none :
    ∀ (s t : Str), indexOfCI t s = none →
      ∀ j, isPrefixCI t (s.drop j) = false := by
  intro s
  induction s with
  | nil =>
    intro t h j
    simp only [indexOfCI] at h
    split at h
    · cases h
    · next hne =>
      have ht : t ≠ [] := by simpa [List.isEmpty_iff] using hne
      simpa using isPrefixCI_nil_of_ne ht
  | cons c rest ih =>
    intro t h j
    simp only [indexOfCI] at h
    by_cases hp : isPrefixCI t (c :: rest) = true
    · rw [if_pos hp] at h; cases h
    · rw [if_neg hp] at h
      cases j with
      | zero => simpa using Bool.eq_false_iff.mpr hp
      | succ j0 =>
        have hnone : indexOfCI t rest = none := by
          cases hio : indexOfCI t rest with
          | none => rfl
          | some i0 => rw [hio] at h; cases h
        simpa using ih t hnone j0

lemma bestMatch_none :
    ∀ (terms : List Str) (rem : Str), bestMatch terms rem = none →
      ∀ t2 ∈ terms, ∀ j, isPrefixCI t2 (rem.drop j) = false := by
  intro terms
  induction terms with
  | nil => intro rem h t2 ht2; cases ht2
  | cons t ts ih =>
    intro rem h t2 ht2 j
    cases hio : indexOfCI t rem with
    | none =>
      simp only [bestMatch, hio] at h
      rcases List.mem_cons.mp ht2 with h2 | h2
      · subst h2; exact indexOfCI_none rem t2 hio j
      · exact ih rem h t2 h2 j
    | some i =>
      cases hbm : bestMatch ts rem with
      | none =>
        simp only [bestMatch, hio, hbm] at h
        exact Option.noConfusion h
      | some p =>
        obtain ⟨j2, u⟩ := p
        simp only [bestMatch, hio, hbm] at h
        split at h <;> exact Option.noConfusion h

lemma bestMatch_spec :
    ∀ (terms : List Str) (rem : Str) (i : Nat) (t : Str),
      bestMatch terms rem = some (i, t) →
      t ∈ terms ∧ isPrefixCI t (rem.drop i) = true ∧
        ∀ t2 ∈ terms, ∀ j, isPrefixCI t2 (rem.drop j) = true → i ≤ j := by
  intro terms
  induction terms with
  | nil => intro rem i t h; cases h
  | cons t0 ts ih =>
    intro rem i t h
    cases hio : indexOfCI t0 rem with
    | none =>
      simp only [bestMatch, hio] at h
      obtain ⟨hmem, hpre, hmin⟩ := ih rem i t h
      refine ⟨List.mem_cons_of_mem _ hmem, hpre, ?_⟩
      intro t2 ht2 j hj
      rcases List.mem_cons.mp ht2 with h2 | h2
      · subst h2; rw [indexOfCI_none rem t2 hio j] at hj; cases hj
      · exact hmin t2 h2 j hj
    | some i0 =>
      cases hbm : bestMatch ts rem with
      | none =>
        simp only [bestMatch, hio, hbm] at h
        cases h
        refine ⟨List.mem_cons_self _ _, indexOfCI_prefix rem t0 i hio, ?_⟩
        intro t2 ht2 j hj
        rcases List.mem_cons.mp ht2 with h2 | h2
        · rw [h2] at hj; exact indexOfCI_min rem t0 i hio j hj
        · rw [bestMatch_none ts rem hbm t2 h2 j] at hj; cases hj
      | some p =>
        obtain ⟨j0, u⟩ := p
        obtain ⟨humem, hupre, humin⟩ := ih rem j0 u hbm
        simp only [bestMatch, hio, hbm] at h
        split at h
        · next hlt =>
          cases h
          refine ⟨List.mem_cons_of_mem _ humem, hupre, ?_⟩
          intro t2 ht2 j hj
          rcases List.mem_cons.mp ht2 with h2 | h2
          · rw [h2] at hj
            have := indexOfCI_min rem t0 i0 hio j hj
            omega
          · exact humin t2 h2 j hj
        · next hge =>
          cases h
          refine ⟨List.mem_cons_self _ _, indexOfCI_prefix rem t0 i hio, ?_⟩
          intro t2 ht2 j hj
          rcases List.mem_cons.mp ht2 with h2 | h2
          · rw [h2] at hj; exact indexOfCI_min rem t0 i hio j hj
          · have := humin t2 h2 j hj
            omega

lemma flattenSegs_append :
    ∀ (a b : List Seg), flattenSegs (a ++ b) = flattenSegs a ++ flattenSegs b := by
  intro a b
  induction a with
  | nil => simp [flattenSegs]
  | cons s rest ih => cases s <;> simp [flattenSegs, ih]

lemma scanSegs_flatten :
    ∀ (fuel : Nat) (terms : List Str) (rem : Str),
      flattenSegs (scanSegs terms fuel rem) = rem := by
  intro fuel
  induction fuel with
  | zero => intro terms rem; cases rem <;> simp [scanSegs, flattenSegs]
  | succ f ih =>
    intro terms rem
    cases rem with
    | nil => simp [scanSegs, flattenSegs]
    | cons c rest =>
      cases hbm : bestMatch terms (c :: rest) with
      | none => simp [scanSegs, hbm, flattenSegs]
      | some p =>
        obtain ⟨i, t⟩ := p
        by_cases ht : t = []
        · simp [scanSegs, hbm, ht, flattenSegs]
        · by_cases hi : 0 < i
          · simp [scanSegs, hbm, ht, hi, flattenSegs_append, flattenSegs, ih,
              List.take_append_drop]
          · have hz : i = 0 := by omega
            subst hz
            simp [scanSegs, hbm, ht, flattenSegs, ih, List.take_append_drop]

/-- Claim C7, counterexample: the string highlighter applies one global
replacement pass per term, so overlapping terms nest mark tags and the
inner characters are wrapped twice — the earliest-candidate non-overlap
policy claimed for all displayed text does not hold for it. -/
theorem c7_counterexample :
    highlightText (str "ab") [str "ab", str "b"] = str "<mark>a<mark>b</mark></mark>"
    ∧ marksFlat (highlightText (str "ab") [str "ab", str "b"]) 0 = false
    ∧ marksFlat (highlightText (str "Shotgun") [str "gun"]) 0 = true := by
  refine ⟨by decide, by decide, by decide⟩

/-- Claim C7 (amended): the text-node highlighter rewraps a text exactly
(no character duplicated or dropped, marks flat by construction), its
candidate selection always takes the earliest-starting occurrence over all
valid terms, and on the text shotgun with terms sho and shot it produces
exactly one mark covering sho; the string highlighter used for the plain
display fields lacks this guarantee, as the counterexample shows. -/
theorem c7_markTerms :
    (∀ (text : Str) (terms : List Str),
      flattenSegs (markSegments text terms) = text)
    ∧ (∀ (terms : List Str) (rem : Str) (i : Nat) (t : Str),
        bestMatch (terms.filter (fun u => !u.isEmpty)) rem = some (i, t) →
        ∀ t2 ∈ terms.filter (fun u => !u.isEmpty), ∀ j,
          isPrefixCI t2 (rem.drop j) = true → i ≤ j)
    ∧ markedSegs (markSegments (str "shotgun") [str "sho", str "shot"]) = [str "sho"]
    ∧ countMarked (markSegments (str "shotgun") [str "sho", str "shot"]) = 1 := by
  refine ⟨?_, ?_, by decide, by decide⟩
  · intro text terms
    simp only [markSegments]
    split
    · simp [flattenSegs]
    · exact scanSegs_flatten _ _ _
  · intro terms rem i t h
    exact (bestMatch_spec _ _ _ _ h).2.2

/-- Claim C7, witness: the amended statement applied at the shotgun example,
with the earliest-candidate hypothesis discharged at the concrete match. -/
theorem c7_witness :
    flattenSegs (markSegments (str "shotgun") [str "sho", str "shot"]) = str "shotgun"
    ∧ (0 : Nat) ≤ 0 :=
  ⟨c7_markTerms.1 (str "shotgun") [str "sho", str "shot"],
   c7_markTerms.2.1 [str "sho", str "shot"] (str "shotgun") 0 (str "sho")
     (by decide) (str "shot") (by decide) 0 (by decide)⟩

end RimDefs

namespace RimDefs

/-!  Claim C6: the matching predicate of the query engine. -/

lemma splitTokens_facts :
    ∀ (s acc : Str), (∀ c ∈ acc, isWs c = false) →
      ∀ t ∈ splitTokens acc s, t ≠ [] ∧ ∀ c ∈ t, isWs c = false := by
  intro s
  induction s with
  | nil =>
    intro acc hacc t ht
    simp only [splitTokens] at ht
    split at ht
    · exact absurd ht (List.not_mem_nil _)
    · next hne =>
      rcases List.mem_singleton.mp ht with rfl
      refine ⟨fun h0 => hne (List.reverse_eq_nil_iff.mp h0), ?_⟩
      intro c hc
      exact hacc c (List.mem_reverse.mp hc)
  | cons c rest ih =>
    intro acc hacc t ht
    simp only [splitTokens] at ht
    by_cases hw : isWs c = true
    · rw [if_pos hw] at ht
      by_cases ha : acc = []
      · rw [if_pos ha] at ht
        exact ih [] (by simp) t ht
      · rw [if_neg ha] at ht
        rcases List.mem_cons.mp ht with rfl | h
        · refine ⟨fun h0 => ha (List.reverse_eq_nil_iff.mp h0), ?_⟩
          intro c2 hc2
          exact hacc c2 (List.mem_reverse.mp hc2)
        · exact ih [] (by simp) t h
    · rw [if_neg hw] at ht
      refine ih (c :: acc) ?_ t ht
      intro c2 hc2
      rcases List.mem_cons.mp hc2 with rfl | h2
      · exact Bool.eq_false_iff.mpr hw
      · exact hacc c2 h2

lemma tokenize_facts (q : Str) :
    ∀ t ∈ tokenize q, t ≠ [] ∧ ∀ c ∈ t, isWs c = false :=
  splitTokens_facts (lowerStr q) [] (by simp)

lemma prefix_append_cons :
    ∀ (t a : Str) (x : Char) (b : Str), t <+: (a ++ x :: b) → t <+: a ∨ x ∈ t := by
  intro t
  induction t with
  | nil => intro a x b _; left; exact List.nil_prefix
  | cons y t2 ih =>
    intro a x b h
    cases a with
    | nil =>
      right
      simp only [List.nil_append] at h
      have hy := (List.cons_prefix_cons.mp h).1
      rw [hy]
      exact List.mem_cons_self _ _
    | cons z a2 =>
      rw [List.cons_append] at h
      obtain ⟨hyz, h2⟩ := List.cons_prefix_cons.mp h
      rcases ih a2 x b h2 with hp | hxm
      · left; exact List.cons_prefix_cons.mpr ⟨hyz, hp⟩
      · right; exact List.mem_cons_of_mem _ hxm

lemma infix_append_cons_iff :
    ∀ (t a : Str) (x : Char) (b : Str), t ≠ [] → x ∉ t →
      (t <:+: (a ++ x :: b) ↔ t <:+: a ∨ t <:+: b) := by
  intro t a x b ht hx
  induction a with
  | nil =>
    simp only [List.nil_append]
    rw [List.infix_cons_iff]
    constructor
    · rintro (hp | hi)
      · cases t with
        | nil => exact absurd rfl ht
        | cons y t2 =>
          have hy := (List.cons_prefix_cons.mp hp).1
          cases hy
          exact absurd (List.mem_cons_self _ _) hx
      · right; exact hi
    · rintro (hi | hi)
      · exact absurd (List.infix_nil.mp hi) ht
      · right; exact hi
  | cons z a2 ih =>
    rw [List.cons_append, List.infix_cons_iff]
    constructor
    · rintro (hp | hi)
      · have hp2 : t <+: (z :: a2) ++ x :: b := by rwa [List.cons_append]
        rcases prefix_append_cons t (z :: a2) x b hp2 with h1 | h1
        · left; exact h1.isInfix
        · exact absurd h1 hx
      · rcases ih.mp hi with h1 | h1
        · left; exact List.infix_cons h1
        · right; exact h1
    · rintro (hi | hi)
      · rcases List.infix_cons_iff.mp hi with hp | h1
        · left
          exact hp.trans (List.prefix_append _ _)
        · right
          exact ih.mpr (Or.inl h1)
      · right
        exact ih.mpr (Or.inr hi)
  
lemma isSubB_iff : ∀ (s t : Str), isSubB t s = true ↔ t <:+: s := by
  intro s
  induction s with
  | nil =>
    intro t
    simp [isSubB, List.isEmpty_iff, List.infix_nil]
  | cons c rest ih =>
    intro t
    simp only [isSubB, Bool.or_eq_true]
    rw [List.infix_cons_iff]
    constructor
    · rintro (h | h)
      · left; exact List.isPrefixOf_iff_prefix.mp h
      · right; exact (ih t).mp h
    · rintro (h | h)
      · left; exact List.isPrefixOf_iff_prefix.mpr h
      · right; exact (ih t).mpr h

lemma lowerStr_append (a b : Str) :
    lowerStr (a ++ b) = lowerStr a ++ lowerStr b := by
  simp [lowerStr]

lemma joinSp_split :
    ∀ (fs : List Str) (t : Str), t ≠ [] → (∀ c ∈ t, isWs c = false) →
      (t <:+: lowerStr (joinSp fs) ↔ ∃ f ∈ fs, t <:+: lowerStr f) := by
  intro fs
  induction fs with
  | nil =>
    intro t ht _
    simp [joinSp, lowerStr, List.infix_nil, ht]
  | cons f rest ih =>
    intro t ht hw
    cases rest with
    | nil => simp [joinSp]
    | cons f2 rest2 =>
      have hx : ' ' ∉ t := by
        intro hmem
        have h0 := hw ' ' hmem
        simp [isWs] at h0
      rw [show joinSp (f :: f2 :: rest2) = f ++ ' ' :: joinSp (f2 :: rest2) from rfl,
          lowerStr_append]
      have hsp : lowerStr (' ' :: joinSp (f2 :: rest2))
          = ' ' :: lowerStr (joinSp (f2 :: rest2)) := by
        have h32 : lowChar ' ' = ' ' := by decide
        simp [lowerStr, h32]
      rw [hsp,
          infix_append_cons_iff t (lowerStr f) ' ' (lowerStr (joinSp (f2 :: rest2))) ht hx,
          ih t ht hw]
      simp [List.exists_mem_cons_iff]

/-- Claim C6: the matching predicate holds exactly when the source passes
the enabled-source filter, the category passes the enabled-type filter, and
every whitespace-split lower-cased token of the query occurs
case-insensitively in at least one of the eight searched fields (an empty
or whitespace-only query yields no tokens, so the token condition is then
vacuous, matching the empty-query rule of the source). -/
theorem c6_match_iff :
    ∀ (sourceFilter typeFilter : List Str) (r : Rec) (q : Str),
      matchRecord sourceFilter typeFilter r (tokenize q) = true ↔
        (r.source ∈ sourceFilter ∧ r.defType ∈ typeFilter ∧
          ∀ t ∈ tokenize q, ∃ f ∈ hayFields r, t <:+: lowerStr f) := by
  intro sf tf r q
  unfold matchRecord
  by_cases hs : r.source ∈ sf
  · rw [if_pos hs]
    by_cases htf : r.defType ∈ tf
    · rw [if_pos htf]
      by_cases hq : tokenize q = []
      · rw [if_pos hq]
        simp [hs, htf, hq]
      · rw [if_neg hq]
        rw [List.all_eq_true]
        constructor
        · intro hall
          refine ⟨hs, htf, ?_⟩
          intro t htk
          have hfacts := tokenize_facts q t htk
          exact (joinSp_split (hayFields r) t hfacts.1 hfacts.2).mp
            ((isSubB_iff (hayOf r) t).mp (hall t htk))
        · rintro ⟨-, -, hall⟩ t htk
          have hfacts := tokenize_facts q t htk
          exact (isSubB_iff (hayOf r) t).mpr
            ((joinSp_split (hayFields r) t hfacts.1 hfacts.2).mpr (hall t htk))
    · rw [if_neg htf]
      simp [htf]
  · rw [if_neg hs]
    simp [hs]

end RimDefs

namespace RimDefs

/-!  Claim C3: the resolution preference order. -/

lemma strLe_iff (a b : Str) : strLe a b = true ↔ a ≤ b := by
  simp [strLe, strLt, not_lt]

lemma insertStr_perm (x : Str) (l : List Str) : (insertStr x l).Perm (x :: l) := by
  induction l with
  | nil => simp [insertStr]
  | cons y ys ih =>
    simp only [insertStr]
    split
    · exact (ih.cons y).trans (List.Perm.swap x y ys)
    · exact List.Perm.refl _

lemma foldl_insertStr_perm :
    ∀ (l acc : List Str), (l.foldl (fun a x => insertStr x a) acc).Perm (acc ++ l) := by
  intro l
  induction l with
  | nil => intro acc; simp
  | cons x xs ih =>
    intro acc
    simp only [List.foldl_cons]
    exact (ih (insertStr x acc)).trans
      (((insertStr_perm x acc).append_right xs).trans List.perm_middle.symm)

lemma sortStrs_perm (l : List Str) : (sortStrs l).Perm l := by
  simpa using foldl_insertStr_perm l []

lemma insertStr_pairwise (x : Str) :
    ∀ l, List.Pairwise (fun a b : Str => a ≤ b) l →
      List.Pairwise (fun a b : Str => a ≤ b) (insertStr x l) := by
  intro l
  induction l with
  | nil => intro _; simp [insertStr]
  | cons y ys ih =>
    intro hp
    rcases List.pairwise_cons.mp hp with ⟨hy, hys⟩
    simp only [insertStr]
    split
    · next hle =>
      refine List.pairwise_cons.mpr ⟨?_, ih hys⟩
      intro z hz
      rcases List.mem_cons.mp ((insertStr_perm x ys).mem_iff.mp hz) with rfl | hzys
      · exact (strLe_iff y z).mp hle
      · exact hy z hzys
    · next hnle =>
      have hxy : x ≤ y := by
        have := (strLe_iff y x).not.mp (by simpa using hnle)
        exact le_of_not_le this
      refine List.pairwise_cons.mpr ⟨?_, hp⟩
      intro z hz
      rcases List.mem_cons.mp hz with rfl | hzys
      · exact hxy
      · exact hxy.trans (hy z hzys)

lemma sortStrs_sorted (l : List Str) :
    List.Pairwise (fun a b : Str => a ≤ b) (sortStrs l) := by
  suffices h : ∀ (m acc : List Str),
      List.Pairwise (fun a b : Str => a ≤ b) acc →
      List.Pairwise (fun a b : Str => a ≤ b) (m.foldl (fun a x => insertStr x a) acc) by
    exact h l [] (by simp)
  intro m
  induction m with
  | nil => intro acc h; simpa using h
  | cons x xs ih =>
    intro acc h
    simp only [List.foldl_cons]
    exact ih (insertStr x acc) (insertStr_pairwise x acc h)

lemma indexFind_some :
    ∀ (defs : List Rec) (src : Str) (key : Str × Str) (d : Rec),
      indexFind defs src key = some d →
      d ∈ defs ∧ d.kind = str "def" ∧ d.source = src
        ∧ d.defType = key.1 ∧ d.defName = key.2 := by
  intro defs src key d
  suffices h : ∀ (l : List Rec) (acc : Option Rec),
      l.foldl (fun acc d2 =>
        if d2.kind == str "def" && d2.source == src
            && d2.defType == key.1 && d2.defName == key.2 then some d2 else acc) acc
        = some d →
      acc = some d ∨ (d ∈ l ∧ d.kind = str "def" ∧ d.source = src
        ∧ d.defType = key.1 ∧ d.defName = key.2) by
    intro hfind
    rcases h defs none hfind with hacc | hgood
    · cases hacc
    · exact hgood
  intro l
  induction l with
  | nil => intro acc h; left; exact h
  | cons r rest ih =>
    intro acc h
    simp only [List.foldl_cons] at h
    rcases ih _ h with hacc | hgood
    · by_cases hc : (r.kind == str "def" && r.source == src
          && r.defType == key.1 && r.defName == key.2) = true
      · rw [if_pos hc] at hacc
        cases hacc
        simp only [Bool.and_eq_true, beq_iff_eq] at hc
        exact Or.inr ⟨List.mem_cons_self _ _, hc.1.1.1, hc.1.1.2, hc.1.2, hc.2⟩
      · rw [if_neg hc] at hacc
        exact Or.inl hacc
    · exact Or.inr ⟨List.mem_cons_of_mem _ hgood.1, hgood.2⟩

lemma indexFind_mem_sources :
    ∀ (defs : List Rec) (src : Str) (key : Str × Str) (d : Rec),
      indexFind defs src key = some d → src ∈ indexSources defs := by
  intro defs src key d h
  obtain ⟨hmem, hkind, hsrc, -, -⟩ := indexFind_some defs src key d h
  have h1 : d ∈ defs.filter (fun d2 => d2.kind == str "def") :=
    List.mem_filter.mpr ⟨hmem, by simp [hkind]⟩
  have h2 : src ∈ (defs.filter (fun d2 => d2.kind == str "def")).map (fun d2 => d2.source) := by
    rw [← hsrc]
    exact List.mem_map_of_mem _ h1
  exact (sortStrs_perm _).mem_iff.mpr (List.mem_dedup.mpr h2)

lemma findSome_min {f : Str → Option Rec} :
    ∀ (l : List Str), List.Pairwise (fun a b : Str => a ≤ b) l → l.Nodup →
      ∀ (src : Str) (d : Rec), src ∈ l → f src = some d →
      (∀ y ∈ l, y ≠ src → y ≤ src → f y = none) →
      l.findSome? f = some d := by
  intro l
  induction l with
  | nil => intro _ _ src d hmem; cases hmem
  | cons h0 rest ih =>
    intro hp hnd src d hmem hf hmin
    rcases List.pairwise_cons.mp hp with ⟨hle, hrest⟩
    rcases List.nodup_cons.mp hnd with ⟨hnmem, hndrest⟩
    rcases List.mem_cons.mp hmem with rfl | hsrcrest
    · simp [List.findSome?_cons, hf]
    · have hne : h0 ≠ src := fun he => hnmem (he ▸ hsrcrest)
      have hnone : f h0 = none :=
        hmin h0 (List.mem_cons_self _ _) hne (hle src hsrcrest)
      rw [List.findSome?_cons, hnone]
      exact ih hrest hndrest src d hsrcrest hf
        (fun y hy hyne hyle => hmin y (List.mem_cons_of_mem _ hy) hyne hyle)

/-- Claim C3: one resolution step prefers the own-source definition, then
the Core definition, then the alphabetically first remaining source holding
the key; when every source misses the key the step is unresolved and the
chain walk appends the missing sentinel and stops. -/
theorem c3_resolution_preference :
    ∀ (defs : List Rec) (curSource defType parentName : Str),
      (∀ d, indexFind defs curSource (defType, parentName) = some d →
        resolve_parent defs curSource defType parentName = some d)
      ∧ (indexFind defs curSource (defType, parentName) = none →
          ∀ d, indexFind defs (str "Core") (defType, parentName) = some d →
            resolve_parent defs curSource defType parentName = some d)
      ∧ (indexFind defs curSource (defType, parentName) = none →
          indexFind defs (str "Core") (defType, parentName) = none →
          ∀ (src : Str) (d : Rec),
            indexFind defs src (defType, parentName) = some d →
            (∀ src2 ∈ indexSources defs, src2 ≠ src → strLe src2 src = true →
              src2 = curSource ∨ src2 = str "Core"
                ∨ indexFind defs src2 (defType, parentName) = none) →
            resolve_parent defs curSource defType parentName = some d)
      ∧ (indexFind defs curSource (defType, parentName) = none →
          indexFind defs (str "Core") (defType, parentName) = none →
          (∀ src2 ∈ indexSources defs,
            indexFind defs src2 (defType, parentName) = none) →
          resolve_parent defs curSource defType parentName = none
          ∧ ∀ (seen : List (Str × Str × Str)) (rem : Nat),
              parentName ≠ [] →
              (curSource, defType, parentName) ∉ seen →
              walkAux defs seen curSource defType (some parentName) rem
                = ⟨[], [missingLabel defType parentName], .missing,
                    [(curSource, defType, parentName)]⟩) := by
  intro defs curSource defType parentName
  refine ⟨?_, ?_, ?_, ?_⟩
  · intro d h
    simp [resolve_parent, h]
  · intro h1 d h2
    simp [resolve_parent, h1, h2]
  · intro h1 h2 src d hsrc hminimal
    simp only [resolve_parent, h1, h2]
    have hsrcmem : src ∈ indexSources defs := indexFind_mem_sources defs src _ d hsrc
    have hsrcne1 : src ≠ curSource := by
      intro he; rw [he] at hsrc; rw [h1] at hsrc; cases hsrc
    have hsrcne2 : src ≠ str "Core" := by
      intro he; rw [he] at hsrc; rw [h2] at hsrc; cases hsrc
    refine findSome_min _ ?_ ?_ src d ?_ hsrc ?_
    · exact List.Pairwise.filter _ (sortStrs_sorted _)
    · exact List.Nodup.filter _ ((sortStrs_perm _).nodup_iff.mpr (List.nodup_dedup _))
    · refine List.mem_filter.mpr ⟨hsrcmem, ?_⟩
      simp [hsrcne1, hsrcne2]
    · intro y hy hyne hyle
      rcases List.mem_filter.mp hy with ⟨hymem, hyp⟩
      simp only [Bool.and_eq_true, Bool.not_eq_true', beq_eq_false_iff_ne] at hyp
      rcases hminimal y hymem hyne ((strLe_iff y src).mpr hyle) with he | he | he
      · exact absurd he hyp.1
      · exact absurd he hyp.2
      · exact he
  · intro h1 h2 hall
    have hres : resolve_parent defs curSource defType parentName = none := by
      simp only [resolve_parent, h1, h2]
      refine List.findSome?_eq_none_iff.mpr ?_
      intro x hx
      exact hall x (List.mem_filter.mp hx).1
    refine ⟨hres, ?_⟩
    intro seen rem hpn hnseen
    simp [walkAux, hpn, hnseen, hres]

/-- Claim C3, witness def records: the key `(T, P)` defined in the sources
Alpha and Delta, resolved from the source Beta with no Core definition. -/
def recAlpha : Rec :=
  { id := mkId (str "Alpha") (str "T") (str "P")
    kind := str "def", defType := str "T", defName := str "P"
    label := none, description := none, parentName := none
    abstract := false, filePath := [], relPath := [], source := str "Alpha"
    rawXml := [], textBlob := [], kvPairs := []
    parentsChainIds := [], parentsChainLabels := [] }

def recDelta : Rec :=
  { id := mkId (str "Delta") (str "T") (str "P")
    kind := str "def", defType := str "T", defName := str "P"
    label := none, description := none, parentName := none
    abstract := false, filePath := [], relPath := [], source := str "Delta"
    rawXml := [], textBlob := [], kvPairs := []
    parentsChainIds := [], parentsChainLabels := [] }

def c3defs : List Rec := [recAlpha, recDelta]

/-- Claim C3, witness: from the source Beta, the key `(T, P)` resolves to
the alphabetically first remaining source Alpha, and the key `(T, Q)` held
by no source resolves to nothing. -/
theorem c3_witness :
    resolve_parent c3defs (str "Beta") (str "T") (str "P") = some recAlpha
    ∧ resolve_parent c3defs (str "Beta") (str "T") (str "Q") = none := by
  constructor
  · exact (c3_resolution_preference c3defs (str "Beta") (str "T") (str "P")).2.2.1
      (by decide) (by decide) (str "Alpha") recAlpha (by decide) (by decide)
  · exact ((c3_resolution_preference c3defs (str "Beta") (str "T") (str "Q")).2.2.2
      (by decide) (by decide) (by decide)).1

end RimDefs

namespace RimDefs

/-!  Properties of the chain walk, shared by the depth, cycle and
length-invariant claims. -/

lemma getLast?_cons_eq {α : Type} (a : α) (l : List α) (d : α)
    (h : l.getLast? = some d) : (a :: l).getLast? = some d := by
  rw [List.getLast?_cons, h]
  rfl

lemma walkAux_props :
    ∀ (defs : List Rec) (rem : Nat) (seen : List (Str × Str × Str))
      (cs ct : Str) (pn : Option Str),
      (walkAux defs seen cs ct pn rem).visited.Nodup
      ∧ (∀ v ∈ (walkAux defs seen cs ct pn rem).visited, v ∉ seen)
      ∧ (walkAux defs seen cs ct pn rem).labels.length
          = (walkAux defs seen cs ct pn rem).ids.length
            + (if (walkAux defs seen cs ct pn rem).stop = .root then 0 else 1)
      ∧ (walkAux defs seen cs ct pn rem).ids.length ≤ rem + 1
      ∧ ((walkAux defs seen cs ct pn rem).stop = .depth →
          (walkAux defs seen cs ct pn rem).ids.length = rem + 1
          ∧ (walkAux defs seen cs ct pn rem).labels.getLast? = some depthSentinel)
      ∧ ((walkAux defs seen cs ct pn rem).stop = .root →
          (walkAux defs seen cs ct pn rem).ids.length ≤ rem)
      ∧ ((walkAux defs seen cs ct pn rem).stop = .cycle →
          (walkAux defs seen cs ct pn rem).ids.length
            = (walkAux defs seen cs ct pn rem).visited.length
          ∧ (walkAux defs seen cs ct pn rem).labels.getLast? = some cycleSentinel) := by
  intro defs rem
  induction rem with
  | zero =>
    intro seen cs ct pn
    cases pn with
    | none => simp [walkAux]
    | some pn =>
      by_cases hpn : pn = []
      · simp [walkAux, hpn]
      · by_cases hck : (cs, ct, pn) ∈ seen
        · simp [walkAux, hpn, hck]
        · cases hres : resolve_parent defs cs ct pn with
          | none => simp [walkAux, hpn, hck, hres]
          | some p => simp [walkAux, hpn, hck, hres]
  | succ rem2 ih =>
    intro seen cs ct pn
    cases pn with
    | none => simp [walkAux]
    | some pn =>
      by_cases hpn : pn = []
      · simp [walkAux, hpn]
      · by_cases hck : (cs, ct, pn) ∈ seen
        · simp [walkAux, hpn, hck]
        · cases hres : resolve_parent defs cs ct pn with
          | none => simp [walkAux, hpn, hck, hres]
          | some p =>
            have hw : walkAux defs seen cs ct (some pn) (rem2 + 1)
                = ⟨p.id :: (walkAux defs ((cs, ct, pn) :: seen) p.source p.defType
                      p.parentName rem2).ids,
                    parentLabel p :: (walkAux defs ((cs, ct, pn) :: seen) p.source
                      p.defType p.parentName rem2).labels,
                    (walkAux defs ((cs, ct, pn) :: seen) p.source p.defType
                      p.parentName rem2).stop,
                    (cs, ct, pn) :: (walkAux defs ((cs, ct, pn) :: seen) p.source
                      p.defType p.parentName rem2).visited⟩ := by
              simp [walkAux, hpn, hck, hres]
            obtain ⟨ihnd, ihdisj, ihlen, ihle, ihdepth, ihroot, ihcycle⟩ :=
              ih ((cs, ct, pn) :: seen) p.source p.defType p.parentName
            rw [hw]
            simp only []
            refine ⟨?_, ?_, ?_, ?_, ?_, ?_, ?_⟩
            · refine List.nodup_cons.mpr ⟨?_, ihnd⟩
              intro hmem
              exact ihdisj _ hmem (List.mem_cons_self _ _)
            · intro v hv
              rcases List.mem_cons.mp hv with rfl | hv2
              · exact hck
              · intro hvs
                exact ihdisj v hv2 (List.mem_cons_of_mem _ hvs)
            · simp only [List.length_cons]
              omega
            · simp only [List.length_cons]
              omega
            · intro hstop
              obtain ⟨h1, h2⟩ := ihdepth hstop
              constructor
              · simp only [List.length_cons]
                omega
              · exact getLast?_cons_eq _ _ _ h2
            · intro hstop
              have h1 := ihroot hstop
              simp only [List.length_cons]
              omega
            · intro hstop
              obtain ⟨h1, h2⟩ := ihcycle hstop
              constructor
              · simp only [List.length_cons]
                omega
              · exact getLast?_cons_eq _ _ _ h2

end RimDefs

namespace RimDefs

/-!  Claim C8: cycle detection. -/

/-- Claim C8: every loop iteration of the chain walk either stops or adds a
previously unvisited triple to the seen set — the visited triples are
pairwise distinct and disjoint from the incoming seen set, so the walk
terminates and performs at most one resolution per distinct visited triple;
when a triple repeats, the walk appends the cycle sentinel as the last
label and stops without resolving it, which is why the resolved-id count
equals the count of distinct visited triples. -/
theorem c8_cycle_guard :
    ∀ (defs : List Rec) (seen : List (Str × Str × Str)) (cs ct : Str)
      (pn : Option Str) (rem : Nat),
      (walkAux defs seen cs ct pn rem).visited.Nodup
      ∧ (∀ v ∈ (walkAux defs seen cs ct pn rem).visited, v ∉ seen)
      ∧ ((walkAux defs seen cs ct pn rem).stop = .cycle →
          (walkAux defs seen cs ct pn rem).ids.length
            = (walkAux defs seen cs ct pn rem).visited.length
          ∧ (walkAux defs seen cs ct pn rem).labels.getLast? = some cycleSentinel) := by
  intro defs seen cs ct pn rem
  obtain ⟨h1, h2, -, -, -, -, h7⟩ := walkAux_props defs rem seen cs ct pn
  exact ⟨h1, h2, h7⟩

/-- A def record that names itself as parent, the smallest cyclic chain. -/
def selfDef : Rec :=
  { id := mkId (str "S") (str "T") (str "A")
    kind := str "def", defType := str "T", defName := str "A"
    label := none, description := none, parentName := some (str "A")
    abstract := false, filePath := [], relPath := [], source := str "S"
    rawXml := [], textBlob := [], kvPairs := []
    parentsChainIds := [], parentsChainLabels := [] }

def c8defs : List Rec := [selfDef]

/-- Claim C8, witness: on the one-node cycle the walk stops with the cycle
sentinel after exactly one resolution, one per distinct visited triple. -/
theorem c8_witness :
    (walkOf c8defs selfDef).ids.length = (walkOf c8defs selfDef).visited.length
    ∧ (walkOf c8defs selfDef).labels.getLast? = some cycleSentinel :=
  (c8_cycle_guard c8defs [] selfDef.source selfDef.defType selfDef.parentName 100).2.2
    (by decide)

/-!  Claim C2: the depth guard. -/

/-- One link of a 102-def parent chain: def `P i` names `P (i+1)` as
parent, all in one source. -/
def mkChainDef (i : Nat) : Rec :=
  { id := mkId (str "S") (str "T") (str "P" ++ natToStr i)
    kind := str "def", defType := str "T", defName := str "P" ++ natToStr i
    label := none, description := none
    parentName := some (str "P" ++ natToStr (i + 1))
    abstract := false, filePath := [], relPath := [], source := str "S"
    rawXml := [], textBlob := [], kvPairs := []
    parentsChainIds := [], parentsChainLabels := [] }

def chainDefs : List Rec := (List.range 102).map mkChainDef

set_option maxRecDepth 10000 in
/-- Claim C2, counterexample: on a 102-step parent chain the walk resolves
101 ancestors before the depth guard fires, so the ancestor list does
exceed 100 resolved ancestors. -/
theorem c2_counterexample :
    (walkOf chainDefs (mkChainDef 0)).ids.length = 101 := by
  decide

/-- Claim C2 (amended): the walk resolves at most 101 ancestors; the depth
sentinel is appended exactly when 101 resolutions happened, ending the
label list; and a chain that reaches a root within the guard (at most 100
resolutions) ends with no sentinel, labels and ids of equal length. -/
theorem c2_depth_guard :
    ∀ (defs : List Rec) (d : Rec),
      (walkOf defs d).ids.length ≤ 101
      ∧ ((walkOf defs d).stop = .depth →
          (walkOf defs d).ids.length = 101
          ∧ (walkOf defs d).labels.getLast? = some depthSentinel)
      ∧ ((walkOf defs d).stop = .root →
          (walkOf defs d).labels.length = (walkOf defs d).ids.length
          ∧ (walkOf defs d).ids.length ≤ 100) := by
  intro defs d
  obtain ⟨-, -, hlen, hle, hdepth, hroot, -⟩ :=
    walkAux_props defs 100 [] d.source d.defType d.parentName
  refine ⟨hle, hdepth, ?_⟩
  intro h
  refine ⟨?_, hroot h⟩
  rw [show (walkOf defs d).labels.length = (walkOf defs d).ids.length
      + (if (walkOf defs d).stop = StopKind.root then 0 else 1) from hlen, h]
  simp

set_option maxRecDepth 10000 in
/-- Claim C2, witness: on the 102-step chain the depth guard fires and the
amended statement yields the sentinel as the final label entry. -/
theorem c2_witness :
    (walkOf chainDefs (mkChainDef 0)).labels.getLast? = some depthSentinel :=
  ((c2_depth_guard chainDefs (mkChainDef 0)).2.1 (by decide)).2

/-!  Claim C10: length relation of the two ancestor lists. -/

/-- Claim C10: after resolution a non-def record carries empty chains, and
a def record carries exactly the chains of its walk, whose label list
equals the id list in length on a full root resolution and is exactly one
entry longer when any sentinel ended the walk. -/
theorem c10_chain_lengths :
    ∀ (defs : List Rec) (r : Rec), r ∈ build_parent_chains defs →
      (r.kind ≠ str "def" → r.parentsChainIds = [] ∧ r.parentsChainLabels = [])
      ∧ (r.kind = str "def" →
          r.parentsChainIds = (walkAux defs [] r.source r.defType r.parentName 100).ids
          ∧ r.parentsChainLabels
              = (walkAux defs [] r.source r.defType r.parentName 100).labels
          ∧ ((walkAux defs [] r.source r.defType r.parentName 100).stop = .root →
              r.parentsChainLabels.length = r.parentsChainIds.length)
          ∧ ((walkAux defs [] r.source r.defType r.parentName 100).stop ≠ .root →
              r.parentsChainLabels.length = r.parentsChainIds.length + 1)) := by
  intro defs r hr
  simp only [build_parent_chains, List.mem_map] at hr
  obtain ⟨d, hd, hdr⟩ := hr
  by_cases hkind : d.kind ≠ str "def"
  · rw [if_pos hkind] at hdr
    cases hdr
    exact ⟨fun _ => ⟨rfl, rfl⟩, fun hk => absurd hk hkind⟩
  · rw [if_neg hkind] at hdr
    have hk := not_not.mp hkind
    cases hdr
    refine ⟨fun habs => absurd hk habs, fun _ => ?_⟩
    obtain ⟨-, -, hlen, -, -, -, -⟩ :=
      walkAux_props defs 100 [] d.source d.defType d.parentName
    refine ⟨rfl, rfl, ?_, ?_⟩
    · intro hroot
      have hroot2 : (walkOf defs d).stop = StopKind.root := hroot
      show (walkOf defs d).labels.length = (walkOf defs d).ids.length
      rw [show (walkOf defs d).labels.length = (walkOf defs d).ids.length
          + (if (walkOf defs d).stop = StopKind.root then 0 else 1) from hlen, hroot2]
      simp
    · intro hnroot
      have hnroot2 : (walkOf defs d).stop ≠ StopKind.root := hnroot
      show (walkOf defs d).labels.length = (walkOf defs d).ids.length + 1
      rw [show (walkOf defs d).labels.length = (walkOf defs d).ids.length
          + (if (walkOf defs d).stop = StopKind.root then 0 else 1) from hlen,
        if_neg hnroot2]

/-- The record of the one-node cycle after resolution, written in full. -/
def c10rec : Rec :=
  { id := str "S|T:A", kind := str "def", defType := str "T", defName := str "A"
    label := none, description := none, parentName := some (str "A")
    abstract := false, filePath := [], relPath := [], source := str "S"
    rawXml := [], textBlob := [], kvPairs := []
    parentsChainIds := [str "S|T:A"]
    parentsChainLabels := [str "T:A [S]", str "(stopped: cycle)"] }

/-- Claim C10, witness: the resolved cyclic record has a label list exactly
one entry longer than its id list. -/
theorem c10_witness :
    c10rec.parentsChainLabels.length = c10rec.parentsChainIds.length + 1 :=
  ((c10_chain_lengths c8defs c10rec (by decide)).2 (by decide)).2.2.2 (by decide)

end RimDefs

namespace RimDefs

/-!  Claim C1: record identifiers. -/

lemma recsOf_append :
    ∀ (a b : List Entry), recsOf (a ++ b) = recsOf a ++ recsOf b := by
  intro a b
  induction a with
  | nil => rfl
  | cons e rest ih => cases e <;> simp [recsOf, ih]

lemma mem_recsOf :
    ∀ (l : List Entry) (r : Rec), r ∈ recsOf l ↔ Entry.record r ∈ l := by
  intro l r
  induction l with
  | nil => simp [recsOf]
  | cons e rest ih => cases e <;> simp [recsOf, ih]

lemma id_shape_defs :
    ∀ (parsed : Except Str Xml) (xmlPath rootData sourceName : Str) (r : Rec),
      Entry.record r ∈ extract_defs_from_file parsed xmlPath rootData sourceName →
      r.id = mkId r.source r.defType r.defName := by
  intro parsed xmlPath rootData sourceName r hr
  cases parsed with
  | error e => simp [extract_defs_from_file] at hr
  | ok root =>
    simp only [extract_defs_from_file] at hr
    split at hr
    · exact absurd hr (List.not_mem_nil _)
    · rw [List.mem_filterMap] at hr
      obtain ⟨defnode, hmem, hf⟩ := hr
      split at hf
      · cases hf
      · split at hf
        · cases hf
        · cases hf
          rfl

lemma id_shape_patches :
    ∀ (parsed : Except Str Xml) (xmlPath rootData sourceName : Str) (r : Rec),
      Entry.record r ∈ extract_patches_from_file parsed xmlPath rootData sourceName →
      r.id = mkId r.source r.defType r.defName := by
  intro parsed xmlPath rootData sourceName r hr
  cases parsed with
  | error e => simp [extract_patches_from_file] at hr
  | ok root =>
    simp only [extract_patches_from_file] at hr
    split at hr
    · exact absurd hr (List.not_mem_nil _)
    · split at hr
      · exact absurd hr (List.not_mem_nil _)
      · rw [List.mem_map] at hr
        obtain ⟨p, hp, hf⟩ := hr
        cases hf
        rfl

/-- Claim C1 (amended): every extracted record, def or patch, carries the
identifier string built from its own source, category and name; hence the
id list of the full record set is duplicate-free exactly when those
source-category-name encodings are pairwise distinct — extraction itself
never enforces this. -/
theorem c1_id_encoding :
    ∀ (rootData : Str) (docs : List (Str × Str × Except Str Xml)),
      (∀ r ∈ recsOf (processAll rootData docs),
        r.id = mkId r.source r.defType r.defName)
      ∧ (((recsOf (processAll rootData docs)).map (fun r => r.id)).Nodup ↔
          ((recsOf (processAll rootData docs)).map
            (fun r => mkId r.source r.defType r.defName)).Nodup) := by
  intro rootData docs
  have hshape : ∀ r ∈ recsOf (processAll rootData docs),
      r.id = mkId r.source r.defType r.defName := by
    induction docs with
    | nil => intro r hr; simp [processAll, recsOf] at hr
    | cons doc rest ih =>
      intro r hr
      rw [show processAll rootData (doc :: rest)
          = process_file rootData doc ++ processAll rootData rest from rfl,
        recsOf_append] at hr
      rcases List.mem_append.mp hr with h1 | h1
      · have hmem := (mem_recsOf _ r).mp h1
        simp only [process_file] at hmem
        split at hmem
        · exact id_shape_defs _ _ _ _ r hmem
        · exact id_shape_patches _ _ _ _ r hmem
      · exact ih r h1
  refine ⟨hshape, ?_⟩
  rw [List.map_congr_left hshape]

/-- A def element carrying only a name, used twice in one document. -/
def thingC1 : Xml :=
  .node (str "ThingDef") [] none [.node (str "defName") [] (some (str "A")) [] none] none

def defsDocC1 : Xml := .node (str "Defs") [] none [thingC1, thingC1] none

def c1docs : List (Str × Str × Except Str Xml) :=
  [(str "Core", str "/data/Core/a.xml", Except.ok defsDocC1)]

/-- Claim C1, counterexample: two defs of the same category and name in one
source yield two records with the same id — the full record set does not
have pairwise-distinct ids. -/
theorem c1_counterexample :
    (recsOf (processAll (str "/data") c1docs)).map (fun r => r.id)
      = [str "Core|ThingDef:A", str "Core|ThingDef:A"]
    ∧ ¬ ((recsOf (processAll (str "/data") c1docs)).map (fun r => r.id)).Nodup := by
  refine ⟨by decide, by decide⟩

/-- The first record extracted from the duplicate-def document, in full. -/
def c1rec : Rec :=
  { id := str "Core|ThingDef:A"
    kind := str "def"
    defType := str "ThingDef"
    defName := str "A"
    label := none
    description := none
    parentName := none
    abstract := false
    filePath := str "/data/Core/a.xml"
    relPath := str "a.xml"
    source := str "Core"
    rawXml := str "<ThingDef>\n  <defName>A</defName>\n</ThingDef>"
    textBlob := str "A"
    kvPairs := []
    parentsChainIds := []
    parentsChainLabels := [] }

/-- Claim C1, witness: the amended statement applied at the concrete
duplicate-def batch and its first extracted record. -/
theorem c1_witness :
    c1rec.id = mkId c1rec.source c1rec.defType c1rec.defName :=
  (c1_id_encoding (str "/data") c1docs).1 c1rec (by decide)

end RimDefs

namespace RimDefs

/-!  Claim C9: parse failures. -/

lemma processAll_append :
    ∀ (rootData : Str) (a b : List (Str × Str × Except Str Xml)),
      processAll rootData (a ++ b) = processAll rootData a ++ processAll rootData b := by
  intro rootData a b
  induction a with
  | nil => rfl
  | cons doc rest ih => simp [processAll, ih]

lemma parseIssueCount_append :
    ∀ (a b : List Entry),
      parseIssueCount (a ++ b) = parseIssueCount a + parseIssueCount b := by
  intro a b
  simp [parseIssueCount, List.filter_append]

lemma parseIssueCount_records :
    ∀ (l : List Rec), parseIssueCount (l.map Entry.record) = 0 := by
  intro l
  induction l with
  | nil => rfl
  | cons r rest ih => simp [parseIssueCount, List.filter_cons] at ih ⊢

lemma parseIssueCount_failures :
    ∀ (fails : List (Str × Str × Str)), (∀ f ∈ fails, f.1 ≠ []) →
      parseIssueCount (fails.map (fun f => Entry.failure f.1 f.2.1 f.2.2))
        = fails.length := by
  intro fails
  induction fails with
  | nil => intro _; rfl
  | cons f fs ih =>
    intro hall
    have hne : f.1 ≠ [] := hall f (List.mem_cons_self _ _)
    have hpred : (!f.1.isEmpty) = true := by
      simpa [List.isEmpty_iff] using hne
    have ihr := ih (fun g hg => hall g (List.mem_cons_of_mem _ hg))
    simp only [List.map_cons, parseIssueCount, List.filter_cons] at ihr ⊢
    rw [if_pos hpred]
    simp only [List.length_cons]
    omega

/-- Claim C9: a document whose markup cannot be parsed contributes exactly
one parse-failure entry and zero records, the batch continues with the
surrounding documents unchanged, a failure with a non-empty message never
enters the browsable record list the page indexes and searches, and the
page surfaces failures only as the aggregate issue count, one per
failure. -/
theorem c9_parse_failure :
    ∀ (rootData src path e : Str) (pre post docs : List (Str × Str × Except Str Xml)),
      e ≠ [] →
      process_file rootData (src, path, Except.error e) = [Entry.failure e path src]
      ∧ processAll rootData (pre ++ (src, path, Except.error e) :: post)
          = processAll rootData pre
            ++ Entry.failure e path src :: processAll rootData post
      ∧ (∀ entries : List Entry, Entry.failure e path src ∉ jsBrowsable entries)
      ∧ ((∀ f ∈ failsOf (processAll rootData docs), f.1 ≠ []) →
          parseIssueCount (payloadRecords rootData docs)
            = (failsOf (processAll rootData docs)).length) := by
  intro rootData src path e pre post docs he
  have h1 : process_file rootData (src, path, Except.error e)
      = [Entry.failure e path src] := by
    simp [process_file, extract_defs_from_file]
  refine ⟨h1, ?_, ?_, ?_⟩
  · rw [processAll_append,
      show processAll rootData ((src, path, Except.error e) :: post)
        = process_file rootData (src, path, Except.error e)
          ++ processAll rootData post from rfl,
      h1]
    rfl
  · intro entries hmem
    have hpred := (List.mem_filter.mp hmem).2
    have hemp : e.isEmpty = true := hpred
    exact he (List.isEmpty_iff.mp hemp)
  · intro hall
    rw [show payloadRecords rootData docs
        = (build_parent_chains (recsOf (processAll rootData docs))).map Entry.record
          ++ (failsOf (processAll rootData docs)).map
              (fun f => Entry.failure f.1 f.2.1 f.2.2) from rfl,
      parseIssueCount_append, parseIssueCount_records,
      parseIssueCount_failures _ hall]
    omega

/-- Claim C9, witness: a one-document batch whose document fails to parse
yields exactly one failure entry and an aggregate issue count of one. -/
theorem c9_witness :
    process_file (str "/data")
        (str "S", str "/data/S/x.xml", Except.error (str "syntax error"))
      = [Entry.failure (str "syntax error") (str "/data/S/x.xml") (str "S")]
    ∧ parseIssueCount (payloadRecords (str "/data")
        [(str "S", str "/data/S/x.xml", Except.error (str "syntax error"))]) = 1 := by
  have h := c9_parse_failure (str "/data") (str "S") (str "/data/S/x.xml")
    (str "syntax error") [] []
    [(str "S", str "/data/S/x.xml", Except.error (str "syntax error"))] (by decide)
  refine ⟨h.1, ?_⟩
  rw [h.2.2.2 (by decide)]
  decide

end RimDefs

namespace RimDefs

/-- The search example record: a def named Gun_Pistol from the Core
source. -/
def c6rec : Rec :=
  { id := str "Core|ThingDef:Gun_Pistol"
    kind := str "def", defType := str "ThingDef", defName := str "Gun_Pistol"
    label := none, description := none, parentName := none
    abstract := false, filePath := [], relPath := [], source := str "Core"
    rawXml := [], textBlob := [], kvPairs := []
    parentsChainIds := [], parentsChainLabels := [] }

/-- Claim C6, witness: the characterization applied at the query gun core
against the Gun_Pistol record with its source and type enabled. -/
theorem c6_witness :
    matchRecord [str "Core"] [str "ThingDef"] c6rec (tokenize (str "gun core")) = true :=
  (c6_match_iff [str "Core"] [str "ThingDef"] c6rec (str "gun core")).mpr
    ⟨by decide, by decide, by decide⟩

end RimDefs
